import Mathlib

/-!
Verification of `airflow/dags/load_imdb_movie_datasets_local.py`.

The core of the development is a shallow embedding of `_sanitize_columns`,
the column-name sanitization routine, over `List Char` / `String`.
Python sets are modelled as `Finset (List Char)` (only membership and
insertion are used); the unbounded `while s in used` loop is modelled by a
fueled search `pickFreshAux` together with a proof that the fuel
`used.card + 1` always suffices, so the fueled function computes exactly
the value the Python loop computes (the first unused candidate).
`check_file_exists` and `load_parquet_to_bigquery` are embedded with their
external collaborators (the HTTP probe, the warehouse) abstracted as
explicit parameters / state.
-/

/-- The character class kept by the regex `[^0-9a-z_]+` in
`_sanitize_columns`: lowercase ASCII letters, ASCII digits, underscore. -/
def isAllowed (c : Char) : Bool :=
  ('a' ≤ c && c ≤ 'z') || ('0' ≤ c && c ≤ '9') || c == '_'

/-- ASCII whitespace stripped by Python `str.strip()`
(space, tab, newline, carriage return, vertical tab, form feed). -/
def pyIsSpace (c : Char) : Bool :=
  c == ' ' || c == '\t' || c == '\n' || c == '\r' || c == '\x0b' || c == '\x0c'

/-- Python `s.strip()`: drop whitespace from both ends. -/
def pyStrip (l : List Char) : List Char :=
  ((l.dropWhile pyIsSpace).reverse.dropWhile pyIsSpace).reverse

/-- State machine for `re.sub(r'[^0-9a-z_]+', '_', s)`: replace every
maximal run of disallowed characters by a single underscore.  The flag
records whether we are currently inside such a run. -/
def squashAux : Bool → List Char → List Char
  | _, [] => []
  | inRun, c :: cs =>
    if isAllowed c then c :: squashAux false cs
    else if inRun then squashAux true cs
    else '_' :: squashAux true cs

/-- `re.sub(r'[^0-9a-z_]+', '_', s)` from `_sanitize_columns`. -/
def squashDisallowed (l : List Char) : List Char := squashAux false l

/-- State machine for `re.sub(r'_+', '_', s)`: collapse every run of
underscores into one.  The flag records whether the previous character
kept was an underscore. -/
def collapseAux : Bool → List Char → List Char
  | _, [] => []
  | prevU, c :: cs =>
    if c == '_' then
      if prevU then collapseAux true cs else '_' :: collapseAux true cs
    else c :: collapseAux false cs

/-- `re.sub(r'_+', '_', s)` from `_sanitize_columns`. -/
def collapseUnderscores (l : List Char) : List Char := collapseAux false l

/-- Python `s.strip('_')`: drop underscores from both ends. -/
def stripUnderscore (l : List Char) : List Char :=
  ((l.dropWhile (· == '_')).reverse.dropWhile (· == '_')).reverse

/-- The per-label candidate computed by the body of the `for` loop of
`_sanitize_columns` before uniqueness resolution:
`s = c.strip().lower()`; `s = re.sub(r'[^0-9a-z_]+', '_', s)`;
`s = re.sub(r'_+', '_', s).strip('_')`;
`if not s or s[0].isdigit(): s = 'c_' + s`.
Lowercasing is ASCII (`Char.toLower`); any character it would miss is
outside `[a-z0-9_]` and is replaced by an underscore by the next step. -/
def candidateOf (c : List Char) : List Char :=
  let s := stripUnderscore (collapseUnderscores (squashDisallowed
            ((pyStrip c).map Char.toLower)))
  match s with
  | [] => ['c', '_']
  | d :: ds => if d.isDigit then 'c' :: '_' :: d :: ds else d :: ds

/-- Decimal digits of `n`, most significant first, with structural fuel
(the fuel `n + 1` always suffices; see `natToDecAux_eq`).  Embeds the
decimal formatting `f'{base}_{i}'` uses for the counter `i`. -/
def natToDecAux : Nat → Nat → List Char
  | 0, _ => []
  | fuel + 1, n =>
    if n < 10 then [Nat.digitChar n]
    else natToDecAux fuel (n / 10) ++ [Nat.digitChar (n % 10)]

/-- Decimal representation of `n` as a list of digit characters. -/
def natToDec (n : Nat) : List Char := natToDecAux (n + 1) n

/-- The candidate inspected at loop counter `i` in the `while s in used`
loop of `_sanitize_columns`: the bare base for `i = 1` (the value of `s`
on entry), and `f'{base}_{i}'` once the loop has run. -/
def candidateAt (base : List Char) (i : Nat) : List Char :=
  if i ≤ 1 then base else base ++ '_' :: natToDec i

/-- Fueled unfolding of `while s in used: i += 1; s = f'{base}_{i}'`. -/
def pickFreshAux (used : Finset (List Char)) (base : List Char) :
    Nat → Nat → List Char
  | 0, i => candidateAt base i
  | fuel + 1, i =>
    if candidateAt base i ∈ used then pickFreshAux used base fuel (i + 1)
    else candidateAt base i

/-- The uniqueness-resolution loop of `_sanitize_columns`: starting from
`s = base, i = 1`, return the first of `base, base_2, base_3, …` that is
not in `used`.  Fuel `used.card + 1` suffices because the candidates are
pairwise distinct (`pickFresh_least`). -/
def pickFresh (used : Finset (List Char)) (base : List Char) : List Char :=
  pickFreshAux used base (used.card + 1) 1

/-- The `for c in cols` loop of `_sanitize_columns`, threading the
`used` set; `new.append(s)` becomes the emitted head. -/
def sanitizeAux (used : Finset (List Char)) : List (List Char) → List (List Char)
  | [] => []
  | c :: cs =>
    let s := pickFresh used (candidateOf c)
    s :: sanitizeAux (insert s used) cs

/-- `_sanitize_columns(cols)`: `new, used = [], set()`, then the loop.
The used-set is seeded empty at each call. -/
def _sanitize_columns (cols : List String) : List String :=
  (sanitizeAux ∅ (cols.map String.data)).map String.mk

/-- The value of the `used` set after processing a prefix of the labels
(used to state order-preservation and prefix stability). -/
def usedState (used : Finset (List Char)) : List (List Char) → Finset (List Char)
  | [] => used
  | c :: cs => usedState (insert (pickFresh used (candidateOf c)) used) cs

/-- Validity predicate for a sanitized identifier (the spec's
`NormalizedIdentifier`): non-empty, only `[a-z0-9_]` characters, and not
starting with a digit. -/
def validIdent (s : List Char) : Bool :=
  !s.isEmpty && s.all isAllowed && !(s.headD '0').isDigit

/-- Shape check used by the spec's example: matches `^[a-z][a-z0-9_]*$`
(head a lowercase letter, every character in `[a-z0-9_]`) or starts with
the literal `c_`. -/
def identShapeOK (s : String) : Bool :=
  (('a' ≤ s.data.headD '0' && s.data.headD '0' ≤ 'z') && s.data.all isAllowed)
    || s.data.take 2 == ['c', '_']

/-- Value parsed back from a list of decimal digit characters (used to
prove `natToDec` injective). -/
def decValue (l : List Char) : Nat :=
  l.foldl (fun a c => 10 * a + (c.toNat - 48)) 0

/-- Outcome of the HTTP existence probe
`requests.head(url, allow_redirects=True, timeout=20)` in
`check_file_exists`: either a response carrying a status code, or any
raised exception (connection error, timeout, ...). -/
inductive ProbeResult where
  | response (status : Nat)
  | failure

/-- `check_file_exists(url)`: `try: return r.status_code == 200`
`except Exception: return False`, with the probe outcome passed
explicitly. -/
def check_file_exists (outcome : ProbeResult) : Bool :=
  match outcome with
  | .response status => status == 200
  | .failure => false

/-- In-memory table as read from the staged Parquet file: column labels
plus rows of cells (cell type abstract). -/
structure DataFrame (α : Type) where
  columns : List String
  rows : List (List α)

/-- `df.columns = _sanitize_columns(df.columns)` in
`load_parquet_to_bigquery`. -/
def sanitizeFrame {α : Type} (df : DataFrame α) : DataFrame α :=
  ⟨_sanitize_columns df.columns, df.rows⟩

/-- Modelled from the spec: the warehouse is a mutable mapping from table
name to contents, and a `WRITE_TRUNCATE` load discards any prior contents
of `table_id` and replaces them wholesale with the submitted table (the
warehouse client itself is an external collaborator, not in the repo). -/
def writeTruncate {α : Type} (tables : String → Option (DataFrame α))
    (table_id : String) (df : DataFrame α) : String → Option (DataFrame α) :=
  fun t => if t = table_id then some df else tables t

/-- `load_parquet_to_bigquery(parquet_path, table_id)`: read the staged
frame, sanitize its column labels, submit it as a `WRITE_TRUNCATE` load to
`table_id`, and wait.  The staged file's contents are the `staged`
parameter and the warehouse state is threaded explicitly. -/
def load_parquet_to_bigquery {α : Type} (staged : DataFrame α)
    (table_id : String) (tables : String → Option (DataFrame α)) :
    String → Option (DataFrame α) :=
  writeTruncate tables table_id (sanitizeFrame staged)

/-! ### Decimal representation lemmas -/

lemma digitChar_toNat (n : Nat) (h : n < 10) : (Nat.digitChar n).toNat = 48 + n := by
  interval_cases n <;> rfl

lemma digitChar_allowed (n : Nat) (h : n < 10) :
    isAllowed (Nat.digitChar n) = true ∧ (Nat.digitChar n).isDigit = true := by
  interval_cases n <;> exact ⟨by decide, by decide⟩

lemma decValue_append_digit (l : List Char) (c : Char) :
    decValue (l ++ [c]) = 10 * decValue l + (c.toNat - 48) := by
  simp [decValue, List.foldl_append]

lemma decValue_natToDecAux (fuel : Nat) :
    ∀ n, n < fuel → decValue (natToDecAux fuel n) = n := by
  induction fuel with
  | zero => intro n h; omega
  | succ fuel ih =>
    intro n hn
    by_cases h : n < 10
    · simp only [natToDecAux, if_pos h]
      have hd := digitChar_toNat n h
      simp [decValue, hd]
    · simp only [natToDecAux, if_neg h]
      rw [decValue_append_digit]
      have h10 : n % 10 < 10 := Nat.mod_lt _ (by omega)
      rw [digitChar_toNat _ h10, ih (n / 10) (by omega)]
      omega

lemma decValue_natToDec (n : Nat) : decValue (natToDec n) = n :=
  decValue_natToDecAux (n + 1) n (Nat.lt_succ_self n)

lemma natToDec_inj {m n : Nat} (h : natToDec m = natToDec n) : m = n := by
  have := congrArg decValue h
  rwa [decValue_natToDec, decValue_natToDec] at this

lemma natToDecAux_chars (fuel : Nat) :
    ∀ n c, c ∈ natToDecAux fuel n → isAllowed c = true ∧ c.isDigit = true := by
  induction fuel with
  | zero => intro n c hc; simp [natToDecAux] at hc
  | succ fuel ih =>
    intro n c hc
    by_cases h : n < 10
    · simp only [natToDecAux, if_pos h, List.mem_singleton] at hc
      exact hc ▸ digitChar_allowed n h
    · simp only [natToDecAux, if_neg h, List.mem_append, List.mem_singleton] at hc
      rcases hc with hc | hc
      · exact ih _ c hc
      · exact hc ▸ digitChar_allowed _ (Nat.mod_lt _ (by omega))

lemma natToDec_chars (n : Nat) (c : Char) (hc : c ∈ natToDec n) :
    isAllowed c = true ∧ c.isDigit = true :=
  natToDecAux_chars (n + 1) n c hc

/-! ### Candidate sequence of the `while` loop -/

lemma candidateAt_one (base : List Char) : candidateAt base 1 = base := by
  simp [candidateAt]

lemma candidateAt_of_ge_two (base : List Char) (k : Nat) (h : 2 ≤ k) :
    candidateAt base k = base ++ '_' :: natToDec k := by
  simp [candidateAt, show ¬ k ≤ 1 by omega]

lemma candidateAt_inj (base : List Char) (j k : Nat) (hj : 1 ≤ j) (hk : 1 ≤ k)
    (h : candidateAt base j = candidateAt base k) : j = k := by
  by_cases h1 : j ≤ 1 <;> by_cases h2 : k ≤ 1
  · omega
  · exfalso
    rw [show j = 1 by omega, candidateAt_one,
        candidateAt_of_ge_two base k (by omega)] at h
    have := congrArg List.length h
    simp at this
  · exfalso
    rw [show k = 1 by omega, candidateAt_one,
        candidateAt_of_ge_two base j (by omega)] at h
    have := congrArg List.length h
    simp at this
  · rw [candidateAt_of_ge_two base j (by omega),
        candidateAt_of_ge_two base k (by omega)] at h
    have hjk : natToDec j = natToDec k := by simpa using h
    exact natToDec_inj hjk

/-! ### Correctness of the fueled collision loop -/

lemma pickFreshAux_spec (used : Finset (List Char)) (base : List Char) :
    ∀ fuel i,
      (∃ k, i ≤ k ∧ k ≤ i + fuel ∧
        pickFreshAux used base fuel i = candidateAt base k ∧
        candidateAt base k ∉ used ∧
        ∀ j, i ≤ j → j < k → candidateAt base j ∈ used) ∨
      ((∀ j, i ≤ j → j < i + fuel → candidateAt base j ∈ used) ∧
        pickFreshAux used base fuel i = candidateAt base (i + fuel)) := by
  intro fuel
  induction fuel with
  | zero =>
    intro i
    right
    exact ⟨fun j h1 h2 => by omega, rfl⟩
  | succ fuel ih =>
    intro i
    by_cases h : candidateAt base i ∈ used
    · rcases ih (i + 1) with ⟨k, hk1, hk2, hres, hfresh, hmin⟩ | ⟨hall, hres⟩
      · left
        refine ⟨k, by omega, by omega, ?_, hfresh, ?_⟩
        · simp only [pickFreshAux, if_pos h]
          exact hres
        · intro j hj1 hj2
          by_cases hji : j = i
          · exact hji ▸ h
          · exact hmin j (by omega) hj2
      · right
        constructor
        · intro j hj1 hj2
          by_cases hji : j = i
          · exact hji ▸ h
          · exact hall j (by omega) (by omega)
        · simp only [pickFreshAux, if_pos h]
          rw [show i + (fuel + 1) = (i + 1) + fuel by omega]
          exact hres
    · left
      refine ⟨i, le_refl _, by omega, ?_, h, fun j h1 h2 => by omega⟩
      simp only [pickFreshAux, if_neg h]

lemma pickFresh_least (used : Finset (List Char)) (base : List Char) :
    ∃ k, 1 ≤ k ∧ pickFresh used base = candidateAt base k ∧
      candidateAt base k ∉ used ∧
      ∀ j, 1 ≤ j → j < k → candidateAt base j ∈ used := by
  rcases pickFreshAux_spec used base (used.card + 1) 1 with h | ⟨hall, _⟩
  · obtain ⟨k, hk1, _, hres, hfresh, hmin⟩ := h
    exact ⟨k, hk1, hres, hfresh, hmin⟩
  · exfalso
    have hsub : ∀ j ∈ Finset.Icc 1 (used.card + 1), candidateAt base j ∈ used := by
      intro j hj
      rw [Finset.mem_Icc] at hj
      exact hall j hj.1 (by omega)
    have hinj : Set.InjOn (candidateAt base) (Finset.Icc 1 (used.card + 1)) := by
      intro a ha b hb hab
      simp only [Finset.coe_Icc, Set.mem_Icc] at ha hb
      exact candidateAt_inj base a b ha.1 hb.1 hab
    have hcard := Finset.card_le_card_of_injOn (candidateAt base) hsub hinj
    rw [Nat.card_Icc] at hcard
    omega

lemma pickFresh_not_mem (used : Finset (List Char)) (base : List Char) :
    pickFresh used base ∉ used := by
  obtain ⟨k, _, hres, hfresh, _⟩ := pickFresh_least used base
  rw [hres]
  exact hfresh

lemma pickFresh_eq_of_not_mem (used : Finset (List Char)) (base : List Char)
    (h : base ∉ used) : pickFresh used base = base := by
  obtain ⟨k, hk, hres, hfresh, hmin⟩ := pickFresh_least used base
  by_cases hk1 : k ≤ 1
  · rw [hres, show k = 1 by omega, candidateAt_one]
  · exfalso
    exact h (candidateAt_one base ▸ hmin 1 (le_refl _) (by omega))

lemma pickFresh_suffix_of_mem (used : Finset (List Char)) (base : List Char)
    (h : base ∈ used) :
    ∃ k, 2 ≤ k ∧ pickFresh used base = base ++ '_' :: natToDec k ∧
      (base ++ '_' :: natToDec k) ∉ used ∧
      ∀ j, 2 ≤ j → j < k → (base ++ '_' :: natToDec j) ∈ used := by
  obtain ⟨k, hk, hres, hfresh, hmin⟩ := pickFresh_least used base
  have hk2 : 2 ≤ k := by
    by_contra hlt
    rw [show k = 1 by omega, candidateAt_one] at hfresh
    exact hfresh h
  refine ⟨k, hk2, ?_, ?_, ?_⟩
  · rw [hres, candidateAt_of_ge_two base k hk2]
  · rw [← candidateAt_of_ge_two base k hk2]
    exact hfresh
  · intro j hj2 hjk
    rw [← candidateAt_of_ge_two base j hj2]
    exact hmin j (by omega) hjk

/-! ### Structure of the sanitization pass -/

lemma sanitizeAux_cons (used : Finset (List Char)) (c : List Char)
    (cs : List (List Char)) :
    sanitizeAux used (c :: cs) =
      pickFresh used (candidateOf c) ::
        sanitizeAux (insert (pickFresh used (candidateOf c)) used) cs := rfl

lemma usedState_cons (used : Finset (List Char)) (c : List Char)
    (cs : List (List Char)) :
    usedState used (c :: cs) =
      usedState (insert (pickFresh used (candidateOf c)) used) cs := rfl

lemma sanitizeAux_length (l : List (List Char)) :
    ∀ used, (sanitizeAux used l).length = l.length := by
  induction l with
  | nil => intro used; rfl
  | cons c cs ih =>
    intro used
    rw [sanitizeAux_cons]
    simp [ih]

lemma sanitizeAux_nodup_and (l : List (List Char)) :
    ∀ used, (sanitizeAux used l).Nodup ∧
      ∀ s ∈ sanitizeAux used l, s ∉ used := by
  induction l with
  | nil => intro used; simp [sanitizeAux]
  | cons c cs ih =>
    intro used
    rw [sanitizeAux_cons]
    obtain ⟨hnd, hmem⟩ := ih (insert (pickFresh used (candidateOf c)) used)
    constructor
    · rw [List.nodup_cons]
      refine ⟨fun hm => ?_, hnd⟩
      exact hmem _ hm (Finset.mem_insert_self _ _)
    · intro s hs
      rcases List.mem_cons.mp hs with rfl | htail
      · exact pickFresh_not_mem used (candidateOf c)
      · intro hsu
        exact hmem s htail (Finset.mem_insert_of_mem hsu)

lemma sanitizeAux_getElem? (l : List (List Char)) :
    ∀ used (i : Nat), (sanitizeAux used l)[i]? =
      (l[i]?).map (fun c =>
        pickFresh (usedState used (l.take i)) (candidateOf c)) := by
  induction l with
  | nil => intro used i; simp [sanitizeAux]
  | cons c cs ih =>
    intro used i
    rw [sanitizeAux_cons]
    cases i with
    | zero => simp [usedState]
    | succ i =>
      simp only [List.getElem?_cons_succ, List.take_succ_cons, usedState_cons]
      exact ih _ i

lemma sanitizeAux_append (l₁ l₂ : List (List Char)) :
    ∀ used, sanitizeAux used (l₁ ++ l₂) =
      sanitizeAux used l₁ ++ sanitizeAux (usedState used l₁) l₂ := by
  induction l₁ with
  | nil => intro used; simp [sanitizeAux, usedState]
  | cons c cs ih =>
    intro used
    rw [List.cons_append, sanitizeAux_cons, sanitizeAux_cons, usedState_cons,
        List.cons_append, ih]

/-! ### Validity of emitted identifiers -/

lemma squashAux_allowed (l : List Char) :
    ∀ (b : Bool), ∀ c ∈ squashAux b l, isAllowed c = true := by
  induction l with
  | nil => intro b c hc; simp [squashAux] at hc
  | cons d ds ih =>
    intro b c hc
    simp only [squashAux] at hc
    by_cases hd : isAllowed d
    · rw [if_pos hd] at hc
      rcases List.mem_cons.mp hc with rfl | h
      · exact hd
      · exact ih false c h
    · rw [if_neg hd] at hc
      cases b with
      | true =>
        simp only [if_pos rfl] at hc
        exact ih true c hc
      | false =>
        rw [if_neg (show ¬(false = true) by decide)] at hc
        rcases List.mem_cons.mp hc with rfl | h
        · decide
        · exact ih true c h

lemma collapseAux_subset (l : List Char) :
    ∀ (b : Bool), ∀ c ∈ collapseAux b l, c = '_' ∨ c ∈ l := by
  induction l with
  | nil => intro b c hc; simp [collapseAux] at hc
  | cons d ds ih =>
    intro b c hc
    simp only [collapseAux] at hc
    by_cases hd : d == '_'
    · rw [if_pos hd] at hc
      cases b with
      | true =>
        simp only [if_pos rfl] at hc
        rcases ih true c hc with h | h
        · exact Or.inl h
        · exact Or.inr (List.mem_cons_of_mem d h)
      | false =>
        rw [if_neg (show ¬(false = true) by decide)] at hc
        rcases List.mem_cons.mp hc with rfl | h
        · exact Or.inl rfl
        · rcases ih true c h with h' | h'
          · exact Or.inl h'
          · exact Or.inr (List.mem_cons_of_mem d h')
    · rw [if_neg hd] at hc
      rcases List.mem_cons.mp hc with rfl | h
      · exact Or.inr (List.mem_cons_self c ds)
      · rcases ih false c h with h' | h'
        · exact Or.inl h'
        · exact Or.inr (List.mem_cons_of_mem d h')

lemma mem_of_mem_stripUnderscore (l : List Char) (c : Char)
    (hc : c ∈ stripUnderscore l) : c ∈ l := by
  unfold stripUnderscore at hc
  rw [List.mem_reverse] at hc
  have h1 := (List.dropWhile_sublist (p := fun c => c == '_')
    (l := (l.dropWhile (· == '_')).reverse)).subset hc
  rw [List.mem_reverse] at h1
  exact (List.dropWhile_sublist (p := fun c => c == '_') (l := l)).subset h1

lemma candidateOf_core_allowed (c : List Char) :
    ∀ d ∈ stripUnderscore (collapseUnderscores (squashDisallowed
        ((pyStrip c).map Char.toLower))), isAllowed d = true := by
  intro d hd
  have h1 := mem_of_mem_stripUnderscore _ _ hd
  rcases collapseAux_subset _ false d h1 with rfl | h2
  · decide
  · exact squashAux_allowed _ false d h2

lemma candidateOf_valid (c : List Char) : validIdent (candidateOf c) = true := by
  have hall := candidateOf_core_allowed c
  unfold candidateOf
  cases hs : stripUnderscore (collapseUnderscores (squashDisallowed
      ((pyStrip c).map Char.toLower))) with
  | nil => decide
  | cons d ds =>
    rw [hs] at hall
    have hdall : isAllowed d = true := hall d (List.mem_cons_self d ds)
    have hdsall : ∀ x ∈ ds, isAllowed x = true :=
      fun x hx => hall x (List.mem_cons_of_mem d hx)
    by_cases hd : d.isDigit
    · simp [hd, validIdent, List.all_eq_true, hdall]
      exact ⟨by decide, by decide, hdsall⟩
    · simp [hd, validIdent, List.all_eq_true, hdall]
      exact hdsall

lemma validIdent_append_suffix (base : List Char) (k : Nat)
    (h : validIdent base = true) :
    validIdent (base ++ '_' :: natToDec k) = true := by
  cases base with
  | nil => simp [validIdent] at h
  | cons b bs =>
    simp only [validIdent, Bool.and_eq_true, Bool.not_eq_true',
      List.all_eq_true, List.isEmpty_cons, Bool.not_false] at h ⊢
    obtain ⟨⟨-, hall⟩, hhead⟩ := h
    refine ⟨⟨rfl, ?_⟩, ?_⟩
    · intro x hx
      rcases List.mem_cons.mp hx with rfl | hx'
      · exact hall x (List.mem_cons_self x bs)
      · rcases List.mem_append.mp hx' with hx'' | hx''
        · exact hall x (List.mem_cons_of_mem b hx'')
        · rcases List.mem_cons.mp hx'' with rfl | hx'''
          · decide
          · exact (natToDec_chars k x hx''').1
    · simpa using hhead

lemma pickFresh_valid (used : Finset (List Char)) (base : List Char)
    (h : validIdent base = true) : validIdent (pickFresh used base) = true := by
  obtain ⟨k, hk, hres, -, -⟩ := pickFresh_least used base
  rw [hres]
  by_cases hk1 : k ≤ 1
  · rw [show k = 1 by omega, candidateAt_one]
    exact h
  · rw [candidateAt_of_ge_two base k (by omega)]
    exact validIdent_append_suffix base k h

lemma sanitizeAux_valid (l : List (List Char)) :
    ∀ used, ∀ s ∈ sanitizeAux used l, validIdent s = true := by
  induction l with
  | nil => intro used s hs; simp [sanitizeAux] at hs
  | cons c cs ih =>
    intro used s hs
    rw [sanitizeAux_cons] at hs
    rcases List.mem_cons.mp hs with rfl | h
    · exact pickFresh_valid _ _ (candidateOf_valid c)
    · exact ih _ s h

/-! ### Claim theorems -/

/-- C1: for every input list of raw label strings, the elements of the
output list of `_sanitize_columns` are pairwise distinct. -/
theorem C1_sanitize_output_nodup (cols : List String) :
    (_sanitize_columns cols).Nodup := by
  unfold _sanitize_columns
  have hinj : Function.Injective String.mk := fun a b hab => congrArg String.data hab
  exact ((sanitizeAux_nodup_and (cols.map String.data) ∅).1).map hinj

/-- C2: the output of `_sanitize_columns` has the same length as the
input, and the identifier at position `i` is the one produced for the
label at position `i` (from that label's candidate and the used-set
accumulated over the first `i` labels): the pass is order-preserving. -/
theorem C2_sanitize_length_order (cols : List String) :
    (_sanitize_columns cols).length = cols.length ∧
    ∀ i : Nat, (_sanitize_columns cols)[i]? =
      (cols[i]?).map (fun c =>
        String.mk (pickFresh (usedState ∅ ((cols.take i).map String.data))
          (candidateOf c.data))) := by
  constructor
  · unfold _sanitize_columns
    rw [List.length_map, sanitizeAux_length, List.length_map]
  · intro i
    unfold _sanitize_columns
    rw [List.getElem?_map, sanitizeAux_getElem?, List.getElem?_map,
        ← List.map_take]
    cases cols[i]? <;> rfl

/-- C3: `_sanitize_columns` is total (a Lean function on all string
lists) and every output element is a valid identifier: non-empty, only
`[a-z0-9_]` characters, not starting with a digit; moreover the output
for `[""]` is exactly `["c_"]`, which is non-empty and starts with
`c_`. -/
theorem C3_sanitize_total_valid :
    (∀ cols : List String, ∀ s ∈ _sanitize_columns cols,
      validIdent s.data = true) ∧
    _sanitize_columns [""] = ["c_"] := by
  constructor
  · intro cols s hs
    unfold _sanitize_columns at hs
    rcases List.mem_map.mp hs with ⟨l, hl, rfl⟩
    exact sanitizeAux_valid _ ∅ l hl
  · decide

/-- Witness for C3 at the concrete input `[""]`. -/
theorem C3_witness : validIdent (String.data "c_") = true :=
  C3_sanitize_total_valid.1 [""] "c_" (by decide)

/-- C4: uniqueness resolution works left to right: a base not yet in the
used-set is kept unsuffixed (so the first occurrence of a base keeps the
unsuffixed form), and a colliding base receives the first free suffixed
name `base_k` with `k = 2, 3, …` tried in order; the concrete run on
`["a_b", "a_b"]` shows the second occurrence suffixed with `_2` while
the first keeps `a_b`. -/
theorem C4_uniqueness_resolution (used : Finset (List Char)) (base : List Char) :
    (base ∉ used → pickFresh used base = base) ∧
    (base ∈ used → ∃ k, 2 ≤ k ∧
      pickFresh used base = base ++ '_' :: natToDec k ∧
      (base ++ '_' :: natToDec k) ∉ used ∧
      ∀ j, 2 ≤ j → j < k → (base ++ '_' :: natToDec j) ∈ used) ∧
    _sanitize_columns ["a_b", "a_b"] = ["a_b", "a_b_2"] :=
  ⟨pickFresh_eq_of_not_mem used base, pickFresh_suffix_of_mem used base,
    by decide⟩

/-- Witness for C4 at concrete used-sets. -/
theorem C4_witness :
    pickFresh ∅ ['a'] = ['a'] ∧
    (∃ k, 2 ≤ k ∧
      pickFresh {['a']} ['a'] = ['a'] ++ '_' :: natToDec k ∧
      (['a'] ++ '_' :: natToDec k) ∉ ({['a']} : Finset (List Char)) ∧
      ∀ j, 2 ≤ j → j < k →
        (['a'] ++ '_' :: natToDec j) ∈ ({['a']} : Finset (List Char))) :=
  ⟨(C4_uniqueness_resolution ∅ ['a']).1 (by simp),
   (C4_uniqueness_resolution {['a']} ['a']).2.1 (by simp)⟩

/-- C5: the per-label candidate before uniqueness resolution is: trim and
lowercase, replace maximal runs outside `[a-z0-9_]` by one underscore,
collapse runs of underscores and strip them from both ends, then prepend
`c_` exactly when the result is empty or starts with a digit; and the two
concrete examples from the spec hold. -/
theorem C5_candidate_spec :
    (∀ c : List Char,
      candidateOf c =
        (let s := stripUnderscore (collapseUnderscores (squashDisallowed
            ((pyStrip c).map Char.toLower)));
         if s = [] ∨ (s.headD '0').isDigit then 'c' :: '_' :: s else s)) ∧
    _sanitize_columns ["Gross(in $)"] = ["gross_in"] ∧
    _sanitize_columns ["9lives"] = ["c_9lives"] := by
  refine ⟨?_, by decide, by decide⟩
  intro c
  unfold candidateOf
  cases hs : stripUnderscore (collapseUnderscores (squashDisallowed
      ((pyStrip c).map Char.toLower))) with
  | nil => simp
  | cons d ds => by_cases hd : d.isDigit <;> simp [hd]

/-- C6: `_sanitize_columns ["1to1", "a b", "A_B", "a_b"]` yields four
pairwise-distinct identifiers, each matching `^[a-z][a-z0-9_]*$` or
starting with `c_`; the third and fourth labels share the base `a_b`
(so do the second), and the collisions are disambiguated by suffixes. -/
theorem C6_collision_example :
    _sanitize_columns ["1to1", "a b", "A_B", "a_b"] =
      ["c_1to1", "a_b", "a_b_2", "a_b_3"] ∧
    (["c_1to1", "a_b", "a_b_2", "a_b_3"] : List String).Nodup ∧
    (["c_1to1", "a_b", "a_b_2", "a_b_3"] : List String).all identShapeOK
      = true ∧
    candidateOf (String.data "A_B") = String.data "a_b" ∧
    candidateOf (String.data "a_b") = String.data "a_b" :=
  ⟨by decide, by decide, by decide, by decide, by decide⟩

/-- C7: the load step is a full-table-replace write: the final contents
of `table_id` after a load are the sanitized staged table regardless of
the prior warehouse state, so loading twice from an unchanged staging
file leaves the whole warehouse state identical to loading once. -/
theorem C7_load_full_replace_idempotent (α : Type) (staged : DataFrame α)
    (table_id : String) (S : String → Option (DataFrame α)) :
    load_parquet_to_bigquery staged table_id
        (load_parquet_to_bigquery staged table_id S) =
      load_parquet_to_bigquery staged table_id S ∧
    ∀ S' : String → Option (DataFrame α),
      load_parquet_to_bigquery staged table_id S' table_id =
        some (sanitizeFrame staged) := by
  constructor
  · funext t
    unfold load_parquet_to_bigquery writeTruncate
    by_cases h : t = table_id <;> simp [h]
  · intro S'
    unfold load_parquet_to_bigquery writeTruncate
    simp

/-- C8: `check_file_exists` is a total boolean function of the probe
outcome, returning true exactly on an explicit HTTP 200 response; any
raised exception (transport error, timeout) and any non-200 status give
false. -/
theorem C8_check_file_exists_total (outcome : ProbeResult) :
    (check_file_exists outcome = true ↔ outcome = ProbeResult.response 200) ∧
    check_file_exists ProbeResult.failure = false := by
  refine ⟨?_, rfl⟩
  cases outcome with
  | response s => simp [check_file_exists]
  | failure => simp [check_file_exists]

/-- C9: `_sanitize_columns` is deterministic: it is a pure function of
its argument (equal inputs give equal outputs), and each call runs with
its own used-set seeded empty. -/
theorem C9_sanitize_deterministic (L M : List String) (h : L = M) :
    _sanitize_columns L = _sanitize_columns M ∧
    _sanitize_columns L =
      (sanitizeAux ∅ (L.map String.data)).map String.mk :=
  ⟨by rw [h], rfl⟩

/-- Witness for C9 at a concrete input. -/
theorem C9_witness :
    _sanitize_columns ["a"] = _sanitize_columns ["a"] ∧
    _sanitize_columns ["a"] =
      (sanitizeAux ∅ (["a"].map String.data)).map String.mk :=
  C9_sanitize_deterministic ["a"] ["a"] rfl

/-- C10: the pass is single left-to-right and never revises earlier
choices on account of later labels: the first `len L` outputs of
`_sanitize_columns (L ++ M)` are exactly `_sanitize_columns L`. -/
theorem C10_prefix_stable (L M : List String) :
    (_sanitize_columns (L ++ M)).take L.length = _sanitize_columns L := by
  unfold _sanitize_columns
  rw [List.map_append, sanitizeAux_append, List.map_append]
  have hlen : ((sanitizeAux ∅ (L.map String.data)).map String.mk).length
      = L.length := by
    rw [List.length_map, sanitizeAux_length, List.length_map]
  rw [← hlen, List.take_left]
